import Mathlib

/- Verification of the text-transformation pipeline of the Shuffle note
   editor (src/src/App.tsx): the line-break normalizer, the format
   serializer of transformText, and the margin-preserving greedy reflow
   of getTransformedText.  JavaScript strings are modelled as Lean
   String values; the pixel widths returned by the canvas measureText
   collaborator are modelled as natural numbers, since the reflow loop
   only compares widths with a less-or-equal test.  All functions are
   total, mirroring the fact that the source never throws on string
   input. -/

namespace Shuffle

/-- JS single-character split: splitListOn sep l is the list of maximal
sep-free segments of l, so that s.split(sep) from the source is
splitListOn sep s.data with each segment repacked as a string.  On the
empty list it returns one empty segment, as JS split does. -/
def splitListOn (sep : Char) : List Char → List (List Char)
  | [] => [[]]
  | c :: rest =>
    if c = sep then [] :: splitListOn sep rest
    else
      match splitListOn sep rest with
      | [] => [[c]]
      | l :: ls => (c :: l) :: ls

/-- text.split(sep) for a single-character separator, at String level. -/
def splitOnChar (sep : Char) (s : String) : List String :=
  (splitListOn sep s.data).map String.mk

/-- text.split of a single newline, as used throughout the source. -/
def splitLines (s : String) : List String := splitOnChar '\n' s

/-- JS Array.prototype.join(sep). -/
def joinWith (sep : String) : List String → String
  | [] => ""
  | [x] => x
  | x :: y :: t => x ++ sep ++ joinWith sep (y :: t)

/-- One step of the normalizer: n is the length of the run of
consecutive newline characters read immediately before the current
position.  Each maximal run of n newlines is emitted as min n 2
newlines, which is exactly what the source regex replacement of every
run of three or more newlines by two newlines performs (runs of one or
two newlines are left untouched by the regex, and min n 2 = n there). -/
def collapseGo (n : Nat) : List Char → List Char
  | [] => List.replicate (min n 2) '\n'
  | c :: rest =>
    if c = '\n' then collapseGo (n + 1) rest
    else List.replicate (min n 2) '\n' ++ c :: collapseGo 0 rest

/-- The normalizer of transformText (App.tsx line 55): text.replace of
every run of three or more newlines by exactly two newlines.  A total
function: normalization never fails. -/
def normalize (s : String) : String := String.mk (collapseGo 0 s.data)

/-- JS String.prototype.trim: strip whitespace from both ends of the
string (modelled over the ASCII whitespace characters recognised by
Char.isWhitespace). -/
def jsTrim (s : String) : String :=
  String.mk (((s.data.dropWhile fun c => c.isWhitespace).reverse.dropWhile
    fun c => c.isWhitespace).reverse)

/-- Lowercase hexadecimal digit, as emitted by JSON.stringify. -/
def hexDig (n : Nat) : Char :=
  if n < 10 then Char.ofNat (48 + n) else Char.ofNat (87 + n)

/-- JSON.stringify escaping of one character of a string value. -/
def escChar (c : Char) : List Char :=
  if c = '"' then ['\\', '"']
  else if c = '\\' then ['\\', '\\']
  else if c = '\n' then ['\\', 'n']
  else if c = '\t' then ['\\', 't']
  else if c.toNat = 13 then ['\\', 'r']
  else if c.toNat = 8 then ['\\', 'b']
  else if c.toNat = 12 then ['\\', 'f']
  else if c.toNat < 32 then ['\\', 'u', '0', '0', hexDig (c.toNat / 16), hexDig (c.toNat % 16)]
  else [c]

/-- The JSON string literal for s, as JSON.stringify renders it. -/
def jsonQuote (s : String) : String :=
  String.mk ('"' :: (s.data.map escChar).flatten ++ ['"'])

/-- JSON.stringify(obj, null, indent) for a flat object with string
values, the object given as its ordered list of key/value pairs.
indent = 0 yields the single-line form, indent > 0 the pretty-printed
form with indent leading spaces per member. -/
def jsonStringifyObj (pairs : List (String × String)) (indent : Nat) : String :=
  if pairs = [] then "\x7b\x7d"
  else if indent = 0 then
    "\x7b" ++ joinWith "," (pairs.map fun p => jsonQuote p.1 ++ ":" ++ jsonQuote p.2) ++ "\x7d"
  else
    "\x7b\n" ++
      joinWith ",\n"
        (pairs.map fun p =>
          String.mk (List.replicate indent ' ') ++ jsonQuote p.1 ++ ": " ++ jsonQuote p.2) ++
      "\n\x7d"

/-- The json-separated lines object: keys "line 1", "line 2", ... in
order, one per element of the list, each valued by its element. -/
def enumLines (xs : List String) : List (String × String) :=
  xs.enum.map fun p => ("line " ++ toString (p.1 + 1), p.2)

/-- The format switch of transformText (App.tsx lines 57-88), applied
to the already-normalized text t.  The html branch writes the global
replacement of newlines by br tags as a split-and-join, which is the
same function. -/
def tfBody (t : String) (format : String) (preserveMargins : Bool) : String :=
  if format = "markdown" then
    if preserveMargins then t
    else joinWith "\n" ((splitLines t).map fun line => if jsTrim line = "" then line else line ++ "  ")
  else if format = "latex" then "\\begin\x7bdocument\x7d\n" ++ t ++ "\n\\end\x7bdocument\x7d"
  else if format = "json" then
    jsonStringifyObj [("content", t)] (if preserveMargins then 2 else 0)
  else if format = "json-separated" then
    jsonStringifyObj (enumLines (splitLines t)) (if preserveMargins then 2 else 0)
  else if format = "html" then "<div>" ++ joinWith "<br>" (splitLines t) ++ "</div>"
  else t

/-- transformText (App.tsx lines 49-89): normalize first, then apply
the format switch. -/
def transformText (text format : String) (preserveMargins : Bool) : String :=
  tfBody (normalize text) format preserveMargins

/-- The greedy word-wrap loop of getTransformedText (App.tsx lines
419-435).  w is the getTextWidth measurement, avail the available
width, lines the accumulator of finished lines, cur the candidate line
currentLine.  An empty currentLine is falsy in the source, hence the
emptiness tests. -/
def buildLinesGo (w : String → Nat) (avail : Nat) :
    List String → List String → String → List String
  | [], lines, cur => if cur = "" then lines else lines ++ [cur]
  | word :: rest, lines, cur =>
    let testLine := if cur = "" then word else cur ++ " " ++ word
    if w testLine ≤ avail then buildLinesGo w avail rest lines testLine
    else if cur = "" then buildLinesGo w avail rest lines word
    else buildLinesGo w avail rest (lines ++ [cur]) word

/-- The lines produced by the greedy loop for one word list. -/
def buildLines (w : String → Nat) (avail : Nat) (words : List String) : List String :=
  buildLinesGo w avail words [] ""

/-- Reflow of one paragraph of the margin-preserving path (App.tsx
lines 412-439); a paragraph is one newline-delimited segment of the
edited text.  A paragraph without non-blank content is emitted as the
empty string; otherwise it is split on single spaces into words,
greedily wrapped, and the wrapped lines are joined with the markdown
hard break or a plain newline. -/
def reflowParagraph (w : String → Nat) (avail : Nat) (format paragraph : String) : String :=
  if jsTrim paragraph = "" then ""
  else joinWith (if format = "markdown" then "  \n" else "\n")
    (buildLines w avail (splitOnChar ' ' paragraph))

/-- The result string of the margin-preserving path before its format
switch (App.tsx lines 411-442): the paragraphs of the raw edited text
(note: not normalized), each reflowed, joined with a blank line. -/
def reflowResult (w : String → Nat) (avail : Nat) (format text : String) : String :=
  joinWith "\n\n" ((splitLines text).map (reflowParagraph w avail format))

/-- The format switch of the margin-preserving path (App.tsx lines
444-471).  The json branch always stringifies with indent 0 and the
json-separated branch always with indent 2; json-separated keeps only
lines with non-blank content and trims each kept line. -/
def reflowSerialize (w : String → Nat) (avail : Nat) (format text : String) : String :=
  let result := reflowResult w avail format text
  if format = "markdown" then result
  else if format = "latex" then "\\begin\x7bdocument\x7d\n" ++ result ++ "\n\\end\x7bdocument\x7d"
  else if format = "json" then jsonStringifyObj [("content", result)] 0
  else if format = "json-separated" then
    jsonStringifyObj
      (enumLines (((splitLines result).filter fun l => jsTrim l ≠ "").map jsTrim)) 2
  else if format = "html" then "<div>" ++ joinWith "<br>" (splitLines result) ++ "</div>"
  else result

/-- getTransformedText (App.tsx lines 384-475).  hasRef models
originalTextRef.current being non-null and hasCtx the canvas 2d
context being obtained; the reflow branch runs only when
preserveMargins, hasRef and hasCtx all hold, otherwise the code falls
back to transformText. -/
def getTransformedText (preserveMargins hasRef hasCtx : Bool) (w : String → Nat)
    (avail : Nat) (format text : String) : String :=
  if preserveMargins = false then transformText text format true
  else if hasRef then
    if hasCtx then reflowSerialize w avail format text
    else transformText text format false
  else transformText text format false

/-- JSON whitespace. -/
def isJsonWs (c : Char) : Bool :=
  c == ' ' || c == '\n' || c == '\t' || c == '\x0d'

/-- Skip leading JSON whitespace. -/
def skipWs : List Char → List Char
  | [] => []
  | c :: rest => if isJsonWs c then skipWs rest else c :: rest

/-- Value of one hexadecimal digit character. -/
def decodeHex (c : Char) : Option Nat :=
  if 48 ≤ c.toNat ∧ c.toNat ≤ 57 then some (c.toNat - 48)
  else if 97 ≤ c.toNat ∧ c.toNat ≤ 102 then some (c.toNat - 87)
  else if 65 ≤ c.toNat ∧ c.toNat ≤ 70 then some (c.toNat - 55)
  else none

/-- Decoding of a single-character JSON string escape. -/
def decodeEsc (e : Char) : Option Char :=
  if e = '"' then some '"'
  else if e = '\\' then some '\\'
  else if e = '/' then some '/'
  else if e = 'n' then some '\n'
  else if e = 't' then some '\t'
  else if e = 'r' then some (Char.ofNat 13)
  else if e = 'b' then some (Char.ofNat 8)
  else if e = 'f' then some (Char.ofNat 12)
  else none

/-- Parser for the body of a JSON string literal, entered after the
opening quote: returns the decoded characters and the input remaining
after the closing quote. -/
def parseStringBody : List Char → Option (List Char × List Char)
  | [] => none
  | c :: rest =>
    if c = '"' then some ([], rest)
    else if c = '\\' then
      match rest with
      | [] => none
      | e :: rest2 =>
        if e = 'u' then
          match rest2 with
          | h1 :: h2 :: h3 :: h4 :: rest3 =>
            match decodeHex h1, decodeHex h2, decodeHex h3, decodeHex h4 with
            | some x1, some x2, some x3, some x4 =>
              match parseStringBody rest3 with
              | some (cs, rem) =>
                some (Char.ofNat (x1 * 4096 + x2 * 256 + x3 * 16 + x4) :: cs, rem)
              | none => none
            | _, _, _, _ => none
          | _ => none
        else
          match decodeEsc e with
          | some d =>
            match parseStringBody rest2 with
            | some (cs, rem) => some (d :: cs, rem)
            | none => none
          | none => none
    else
      match parseStringBody rest with
      | some (cs, rem) => some (c :: cs, rem)
      | none => none

/-- Parser for the members of a JSON object after the opening brace,
returning the key/value pairs in source order.  The fuel argument only
bounds the number of members. -/
def parseMembersAux : Nat → List Char → Option (List (String × String) × List Char)
  | 0, _ => none
  | fuel + 1, input =>
    match skipWs input with
    | '"' :: r1 =>
      match parseStringBody r1 with
      | some (k, r2) =>
        match skipWs r2 with
        | ':' :: r3 =>
          match skipWs r3 with
          | '"' :: r4 =>
            match parseStringBody r4 with
            | some (v, r5) =>
              match skipWs r5 with
              | '\x7d' :: r6 => some ([(String.mk k, String.mk v)], r6)
              | ',' :: r6 =>
                match parseMembersAux fuel r6 with
                | some (ps, r7) => some ((String.mk k, String.mk v) :: ps, r7)
                | none => none
              | _ => none
            | none => none
          | _ => none
        | _ => none
      | none => none
    | _ => none

/-- Recursive-descent parser for the sub-grammar of JSON consisting of
one flat object with string keys and string values; whenever it
succeeds, the input is syntactically valid JSON. -/
def parseJsonObject (s : String) : Option (List (String × String)) :=
  match skipWs s.data with
  | '\x7b' :: rest =>
    match skipWs rest with
    | '\x7d' :: rest2 => if skipWs rest2 = [] then some [] else none
    | _ =>
      match parseMembersAux rest.length rest with
      | some (pairs, rest2) => if skipWs rest2 = [] then some pairs else none
      | none => none
  | _ => none

/-- The character stream of the members of a flat JSON object as the
serializer lays them out, parameterized by the whitespace after each
colon, after each comma, and before the closing brace; used to relate
jsonStringifyObj to the parser. -/
def membersChars (colonWs entrySep lastWs : List Char) :
    List (String × String) → List Char → List Char
  | [], suffix => '\x7d' :: suffix
  | [(k, v)], suffix =>
    '"' :: (k.data.map escChar).flatten ++ '"' :: ':' :: colonWs
      ++ '"' :: (v.data.map escChar).flatten ++ '"' :: lastWs ++ '\x7d' :: suffix
  | (k, v) :: rest, suffix =>
    '"' :: (k.data.map escChar).flatten ++ '"' :: ':' :: colonWs
      ++ '"' :: (v.data.map escChar).flatten ++ '"' :: ',' :: entrySep
      ++ membersChars colonWs entrySep lastWs rest suffix

/-- The paragraphs of a text in the sense of the specification: the
maximal runs of non-empty lines, the lines being the newline-delimited
segments of the text. -/
def paragraphsOf (s : String) : List (List String) :=
  ((splitLines s).splitOn "").filter fun p => p ≠ []

/-- Number of consecutive occurrences of c at the end of s. -/
def countTrailing (c : Char) (s : String) : Nat :=
  (s.data.reverse.takeWhile fun d => d = c).length

/- ------------------------------------------------------------------
   Lemmas about the split/join embedding of JS string primitives.
   ------------------------------------------------------------------ -/

theorem splitListOn_ne_nil (sep : Char) : ∀ l : List Char, splitListOn sep l ≠ []
  | [] => by simp [splitListOn]
  | c :: rest => by
    by_cases hc : c = sep
    · simp [splitListOn, hc]
    · simp only [splitListOn, if_neg hc]
      cases h : splitListOn sep rest <;> simp

theorem sep_not_mem_of_mem_splitListOn (sep : Char) :
    ∀ l x, x ∈ splitListOn sep l → sep ∉ x := by
  intro l
  induction l with
  | nil => intro x hx; simp [splitListOn] at hx; simp [hx]
  | cons c rest ih =>
    intro x hx
    by_cases hc : c = sep
    · simp only [splitListOn, if_pos hc] at hx
      rcases List.mem_cons.mp hx with hx1 | hx1
      · subst hx1; simp
      · exact ih x hx1
    · simp only [splitListOn, if_neg hc] at hx
      cases h : splitListOn sep rest with
      | nil => exact absurd h (splitListOn_ne_nil sep rest)
      | cons l0 ls =>
        rw [h] at hx
        simp at hx
        rcases hx with hx | hx
        · subst hx
          intro hmem
          rcases List.mem_cons.mp hmem with h1 | h1
          · exact hc h1.symm
          · exact ih l0 (by rw [h]; exact List.mem_cons_self l0 ls) h1
        · exact ih x (by rw [h]; exact List.mem_cons_of_mem l0 hx)

theorem splitListOn_of_not_mem (sep : Char) :
    ∀ l : List Char, sep ∉ l → splitListOn sep l = [l] := by
  intro l
  induction l with
  | nil => intro _; simp [splitListOn]
  | cons c rest ih =>
    intro h
    have hc : ¬ c = sep := fun hmm => h (hmm ▸ List.mem_cons_self c rest)
    have hrest : sep ∉ rest := fun hmm => h (List.mem_cons_of_mem c hmm)
    simp only [splitListOn, if_neg hc, ih hrest]

theorem splitListOn_append (sep : Char) :
    ∀ (a t : List Char), sep ∉ a →
      splitListOn sep (a ++ sep :: t) = a :: splitListOn sep t := by
  intro a
  induction a with
  | nil => intro t _; simp [splitListOn]
  | cons c a2 ih =>
    intro t h
    have hc : ¬ c = sep := fun hmm => h (hmm ▸ List.mem_cons_self c a2)
    have ha2 : sep ∉ a2 := fun hmm => h (List.mem_cons_of_mem c hmm)
    simp only [List.cons_append, splitListOn, if_neg hc]
    rw [show a2.append (sep :: t) = a2 ++ sep :: t from rfl, ih t ha2]

theorem data_joinWith_cons₂ (sep : String) (x y : String) (t : List String) :
    (joinWith sep (x :: y :: t)).data
      = x.data ++ sep.data ++ (joinWith sep (y :: t)).data := by
  simp [joinWith]

theorem splitLines_joinWith :
    ∀ xs : List String, xs ≠ [] → (∀ x ∈ xs, '\n' ∉ x.data) →
      splitLines (joinWith "\n" xs) = xs := by
  intro xs
  induction xs with
  | nil => intro h; exact absurd rfl h
  | cons x ys ih =>
    intro _ hmem
    cases ys with
    | nil =>
      have hx : '\n' ∉ x.data := hmem x (List.mem_cons_self x [])
      simp [joinWith, splitLines, splitOnChar, splitListOn_of_not_mem '\n' x.data hx]
    | cons y t =>
      have hx : '\n' ∉ x.data := hmem x (List.mem_cons_self x (y :: t))
      have hrest : ∀ z ∈ y :: t, '\n' ∉ z.data :=
        fun z hz => hmem z (List.mem_cons_of_mem x hz)
      have hne : (y :: t : List String) ≠ [] := by simp
      have ihr := ih hne hrest
      simp only [splitLines, splitOnChar] at ihr ⊢
      have hdata : (joinWith "\n" (x :: y :: t)).data
          = x.data ++ '\n' :: (joinWith "\n" (y :: t)).data := by
        rw [data_joinWith_cons₂]
        simp
      rw [hdata, splitListOn_append '\n' x.data _ hx]
      simp only [List.map_cons]
      rw [ihr]

theorem splitLines_ne_nil (s : String) : splitLines s ≠ [] := by
  simp only [splitLines, splitOnChar]
  intro h
  exact splitListOn_ne_nil '\n' s.data (by simpa using h)

theorem not_newline_mem_of_mem_splitLines (s : String) :
    ∀ x ∈ splitLines s, '\n' ∉ x.data := by
  intro x hx
  simp only [splitLines, splitOnChar, List.mem_map] at hx
  rcases hx with ⟨l, hl, hmk⟩
  have := sep_not_mem_of_mem_splitListOn '\n' s.data l hl
  rw [← hmk]
  exact this

/- ------------------------------------------------------------------
   Lemmas about the normalizer.
   ------------------------------------------------------------------ -/

theorem collapseGo_replicate (m : Nat) :
    ∀ (k : Nat) (t : List Char),
      collapseGo k (List.replicate m '\n' ++ t) = collapseGo (k + m) t := by
  induction m with
  | zero => intro k t; simp
  | succ m ih =>
    intro k t
    rw [List.replicate_succ, List.cons_append]
    show collapseGo k ('\n' :: (List.replicate m '\n' ++ t)) = _
    rw [show collapseGo k ('\n' :: (List.replicate m '\n' ++ t))
        = collapseGo (k + 1) (List.replicate m '\n' ++ t) by simp [collapseGo]]
    rw [ih (k + 1) t]
    congr 1
    omega

theorem collapseGo_congr :
    ∀ (l : List Char) (n m : Nat), min n 2 = min m 2 → collapseGo n l = collapseGo m l := by
  intro l
  induction l with
  | nil => intro n m h; simp [collapseGo, h]
  | cons c rest ih =>
    intro n m h
    by_cases hc : c = '\n'
    · subst hc
      simp only [collapseGo, if_pos rfl]
      exact ih (n + 1) (m + 1) (by omega)
    · simp only [collapseGo, if_neg hc, h]

theorem collapseGo_collapseGo :
    ∀ (l : List Char) (n : Nat), collapseGo 0 (collapseGo n l) = collapseGo (min n 2) l := by
  intro l
  induction l with
  | nil =>
    intro n
    show collapseGo 0 (List.replicate (min n 2) '\n') = _
    rw [show List.replicate (min n 2) '\n' = List.replicate (min n 2) '\n' ++ ([] : List Char)
        by simp]
    rw [collapseGo_replicate (min n 2) 0 []]
    simp [collapseGo]
  | cons c rest ih =>
    intro n
    by_cases hc : c = '\n'
    · subst hc
      rw [show collapseGo n ('\n' :: rest) = collapseGo (n + 1) rest by simp [collapseGo]]
      rw [show collapseGo (min n 2) ('\n' :: rest) = collapseGo (min n 2 + 1) rest
          by simp [collapseGo]]
      rw [ih (n + 1)]
      exact collapseGo_congr rest (min (n + 1) 2) (min n 2 + 1) (by omega)
    · rw [show collapseGo n (c :: rest)
          = List.replicate (min n 2) '\n' ++ c :: collapseGo 0 rest
          by simp [collapseGo, hc]]
      rw [collapseGo_replicate (min n 2) 0 (c :: collapseGo 0 rest)]
      rw [show collapseGo (0 + min n 2) (c :: collapseGo 0 rest)
          = List.replicate (min (0 + min n 2) 2) '\n' ++ c :: collapseGo 0 (collapseGo 0 rest)
          by simp [collapseGo, hc]]
      rw [ih 0]
      rw [show collapseGo (min n 2) (c :: rest)
          = List.replicate (min (min n 2) 2) '\n' ++ c :: collapseGo 0 rest
          by simp [collapseGo, hc]]
      have h1 : min (0 + min n 2) 2 = min (min n 2) 2 := by omega
      have h2 : min 0 2 = 0 := by omega
      rw [h1, h2]

theorem collapseGo_filter :
    ∀ (l : List Char) (n : Nat),
      (collapseGo n l).filter (fun c => c != '\n') = l.filter (fun c => c != '\n') := by
  intro l
  induction l with
  | nil =>
    intro n
    show (List.replicate (min n 2) '\n').filter (fun c => c != '\n') = []
    simp
  | cons c rest ih =>
    intro n
    by_cases hc : c = '\n'
    · subst hc
      rw [show collapseGo n ('\n' :: rest) = collapseGo (n + 1) rest by simp [collapseGo]]
      rw [ih (n + 1)]
      simp
    · rw [show collapseGo n (c :: rest)
          = List.replicate (min n 2) '\n' ++ c :: collapseGo 0 rest
          by simp [collapseGo, hc]]
      rw [List.filter_append]
      have hrep : (List.replicate (min n 2) '\n').filter (fun c => c != '\n') = [] := by
        simp
      rw [hrep]
      simp only [List.nil_append, List.filter_cons]
      have hcb : (c != '\n') = true := by simpa using hc
      rw [hcb]
      simp only [ih 0]

theorem collapseGo_append :
    ∀ (a : List Char), a ≠ [] → a.getLast? ≠ some '\n' →
      ∀ (n : Nat) (t : List Char),
        collapseGo n (a ++ t) = collapseGo n a ++ collapseGo 0 t := by
  intro a
  induction a with
  | nil => intro h; exact absurd rfl h
  | cons c a2 ih =>
    intro _ hlast n t
    cases a2 with
    | nil =>
      have hc : c ≠ '\n' := by
        intro hmm; apply hlast; simp [hmm]
      rw [show ([c] : List Char) ++ t = c :: t by simp]
      rw [show collapseGo n (c :: t)
          = List.replicate (min n 2) '\n' ++ c :: collapseGo 0 t by simp [collapseGo, hc]]
      rw [show collapseGo n [c]
          = List.replicate (min n 2) '\n' ++ c :: collapseGo 0 [] by simp [collapseGo, hc]]
      simp [collapseGo]
    | cons d a3 =>
      have hlast2 : (d :: a3 : List Char).getLast? ≠ some '\n' := by
        intro hmm; apply hlast; rw [List.getLast?_cons_cons]; exact hmm
      have hne2 : (d :: a3 : List Char) ≠ [] := by simp
      by_cases hc : c = '\n'
      · subst hc
        rw [List.cons_append]
        rw [show collapseGo n ('\n' :: ((d :: a3) ++ t))
            = collapseGo (n + 1) ((d :: a3) ++ t) by simp [collapseGo]]
        rw [show collapseGo n ('\n' :: (d :: a3))
            = collapseGo (n + 1) (d :: a3) by simp [collapseGo]]
        exact ih hne2 hlast2 (n + 1) t
      · rw [List.cons_append]
        rw [show collapseGo n (c :: ((d :: a3) ++ t))
            = List.replicate (min n 2) '\n' ++ c :: collapseGo 0 ((d :: a3) ++ t)
            by simp [collapseGo, hc]]
        rw [show collapseGo n (c :: (d :: a3))
            = List.replicate (min n 2) '\n' ++ c :: collapseGo 0 (d :: a3)
            by simp [collapseGo, hc]]
        rw [ih hne2 hlast2 0 t]
        simp

/-- Claim C2 helper: the normalizer is idempotent. -/
theorem normalize_idem (s : String) : normalize (normalize s) = normalize s := by
  show String.mk (collapseGo 0 (collapseGo 0 s.data)) = String.mk (collapseGo 0 s.data)
  rw [collapseGo_collapseGo s.data 0, show min 0 2 = 0 from by omega]

/-- Claim C1: the normalization step of transformText replaces every
maximal run of newline characters (one delimited on the left by the
string start or a non-newline character, and on the right likewise) of
length n by exactly min n 2 newlines — so every run of three or more
becomes exactly two and shorter runs are untouched — while the
subsequence of non-newline characters is preserved unchanged, and, as
the claim instantiates, four consecutive breaks normalize to two.
Being a total Lean function, normalize never fails. -/
theorem C1_normalize_collapses_maximal_runs
    (a b : List Char) (n : Nat)
    (h1 : a.getLast? ≠ some '\n') (h2 : b.head? ≠ some '\n') :
    (normalize (String.mk (a ++ List.replicate n '\n' ++ b))).data
      = (normalize (String.mk a)).data ++ List.replicate (min n 2) '\n'
        ++ (normalize (String.mk b)).data
    ∧ (∀ s : String,
        (normalize s).data.filter (fun c => c != '\n') = s.data.filter (fun c => c != '\n'))
    ∧ normalize "\n\n\n\n" = "\n\n" := by
  refine ⟨?_, fun s => collapseGo_filter s.data 0, by decide⟩
  show collapseGo 0 (a ++ List.replicate n '\n' ++ b)
      = collapseGo 0 a ++ List.replicate (min n 2) '\n' ++ collapseGo 0 b
  have core : ∀ m (c : List Char), c.head? ≠ some '\n' →
      collapseGo m c = List.replicate (min m 2) '\n' ++ collapseGo 0 c := by
    intro m c hc
    cases c with
    | nil => simp [collapseGo]
    | cons d c2 =>
      have hd : d ≠ '\n' := by intro hmm; apply hc; simp [hmm]
      rw [show collapseGo m (d :: c2)
          = List.replicate (min m 2) '\n' ++ d :: collapseGo 0 c2 by simp [collapseGo, hd]]
      rw [show collapseGo 0 (d :: c2)
          = List.replicate (min 0 2) '\n' ++ d :: collapseGo 0 c2 by simp [collapseGo, hd]]
      simp
  cases a with
  | nil =>
    simp only [List.nil_append]
    rw [collapseGo_replicate n 0 b, core (0 + n) b h2]
    have : min (0 + n) 2 = min n 2 := by omega
    rw [this]
    simp [collapseGo]
  | cons c a2 =>
    rw [List.append_assoc]
    rw [collapseGo_append (c :: a2) (by simp) h1 0 (List.replicate n '\n' ++ b)]
    rw [collapseGo_replicate n 0 b, core (0 + n) b h2]
    have : min (0 + n) 2 = min n 2 := by omega
    rw [this, ← List.append_assoc]

/-- Witness for C1 at a concrete input: the run of four newlines in
the middle of a small string collapses to exactly two. -/
theorem C1_normalize_collapses_maximal_runs_witness :
    (normalize (String.mk (['a'] ++ List.replicate 4 '\n' ++ ['b']))).data
      = (normalize (String.mk ['a'])).data ++ List.replicate (min 4 2) '\n'
        ++ (normalize (String.mk ['b'])).data :=
  (C1_normalize_collapses_maximal_runs ['a'] ['b'] 4 (by decide) (by decide)).1

/-- Claim C2: the normalizer is idempotent — normalizing twice yields
the same string as normalizing once. -/
theorem C2_normalize_idempotent (s : String) :
    normalize (normalize s) = normalize s :=
  normalize_idem s

/- ------------------------------------------------------------------
   Lemmas about the greedy reflow loop.
   ------------------------------------------------------------------ -/

theorem string_eq_of_data (a b : String) (h : a.data = b.data) : a = b := by
  cases a with
  | mk d1 => cases b with
    | mk d2 => exact congrArg String.mk h

theorem data_append (a b : String) : (a ++ b).data = a.data ++ b.data := rfl

theorem buildLinesGo_acc (w : String → Nat) (avail : Nat) :
    ∀ (words acc : List String) (cur : String),
      buildLinesGo w avail words acc cur = acc ++ buildLinesGo w avail words [] cur := by
  intro words
  induction words with
  | nil =>
    intro acc cur
    by_cases hcur : cur = "" <;> simp [buildLinesGo, hcur]
  | cons word rest ih =>
    intro acc cur
    simp only [buildLinesGo]
    by_cases hw : w (if cur = "" then word else cur ++ " " ++ word) ≤ avail
    · simp only [if_pos hw]
      exact ih acc _
    · simp only [if_neg hw]
      by_cases hcur : cur = ""
      · simp only [if_pos hcur]
        exact ih acc word
      · simp only [if_neg hcur]
        rw [ih (acc ++ [cur]) word, ih ([] ++ [cur]) word]
        simp

theorem joinWith_space_ne_empty (g : List String) (hg : g ≠ [])
    (hne : ∀ x ∈ g, x ≠ "") : joinWith " " g ≠ "" := by
  cases g with
  | nil => exact absurd rfl hg
  | cons x t =>
    cases t with
    | nil =>
      have := hne x (by simp)
      simpa [joinWith] using this
    | cons y t2 =>
      show x ++ " " ++ joinWith " " (y :: t2) ≠ ""
      intro h
      have hdata : (x ++ " " ++ joinWith " " (y :: t2)).data = [] := by rw [h]
      rw [data_append, data_append] at hdata
      simp at hdata

theorem joinWith_space_append_last :
    ∀ (g : List String) (word : String), g ≠ [] →
      joinWith " " (g ++ [word]) = joinWith " " g ++ " " ++ word := by
  intro g
  induction g with
  | nil => intro word h; exact absurd rfl h
  | cons x t ih =>
    intro word _
    cases t with
    | nil => simp [joinWith]
    | cons y t2 =>
      show joinWith " " (x :: ((y :: t2) ++ [word])) = _
      have hstep : joinWith " " (x :: ((y :: t2) ++ [word]))
          = x ++ " " ++ joinWith " " ((y :: t2) ++ [word]) := by
        simp [joinWith]
      rw [hstep, ih word (by simp)]
      show _ = (x ++ " " ++ joinWith " " (y :: t2)) ++ " " ++ word
      apply string_eq_of_data
      simp [data_append]

theorem buildLinesGo_partition (w : String → Nat) (avail : Nat) :
    ∀ (words : List String), (∀ x ∈ words, x ≠ "") →
      ∀ (g : List String), g ≠ [] → (∀ x ∈ g, x ≠ "") →
        ∃ groups : List (List String),
          buildLinesGo w avail words [] (joinWith " " g) = groups.map (joinWith " ")
          ∧ groups.flatten = g ++ words
          ∧ ∀ gr ∈ groups, gr ≠ [] := by
  intro words
  induction words with
  | nil =>
    intro _ g hg hgne
    refine ⟨[g], ?_, by simp, by simpa using hg⟩
    have hcur : joinWith " " g ≠ "" := joinWith_space_ne_empty g hg hgne
    simp [buildLinesGo, hcur]
  | cons word rest ih =>
    intro hwords g hg hgne
    have hword : word ≠ "" := hwords word (by simp)
    have hrest : ∀ x ∈ rest, x ≠ "" := fun x hx => hwords x (List.mem_cons_of_mem word hx)
    have hcur : joinWith " " g ≠ "" := joinWith_space_ne_empty g hg hgne
    have htest : joinWith " " g ++ " " ++ word = joinWith " " (g ++ [word]) :=
      (joinWith_space_append_last g word hg).symm
    simp only [buildLinesGo, if_neg hcur]
    by_cases hw : w (joinWith " " g ++ " " ++ word) ≤ avail
    · simp only [if_pos hw]
      rw [htest]
      obtain ⟨groups, h1, h2, h3⟩ :=
        ih hrest (g ++ [word]) (by simp)
          (by
            intro x hx
            rcases List.mem_append.mp hx with hx1 | hx1
            · exact hgne x hx1
            · simp at hx1; subst hx1; exact hword)
      exact ⟨groups, h1, by rw [h2]; simp, h3⟩
    · simp only [if_neg hw]
      rw [buildLinesGo_acc w avail rest ([] ++ [joinWith " " g]) word]
      obtain ⟨groups, h1, h2, h3⟩ := ih hrest [word] (by simp) (by simpa using hword)
      have h1b : buildLinesGo w avail rest [] word = groups.map (joinWith " ") := h1
      refine ⟨g :: groups, ?_, ?_, ?_⟩
      · rw [h1b]; simp
      · rw [List.flatten_cons, h2]; simp
      · intro gr hgr
        rcases List.mem_cons.mp hgr with hgr1 | hgr1
        · subst hgr1; exact hg
        · exact h3 gr hgr1

theorem buildLines_partition (w : String → Nat) (avail : Nat)
    (words : List String) (h : ∀ x ∈ words, x ≠ "") :
    ∃ groups : List (List String),
      buildLines w avail words = groups.map (joinWith " ")
      ∧ groups.flatten = words
      ∧ ∀ gr ∈ groups, gr ≠ [] := by
  cases words with
  | nil => exact ⟨[], by simp [buildLines, buildLinesGo], by simp, by simp⟩
  | cons word rest =>
    have hword : word ≠ "" := h word (by simp)
    have hrest : ∀ x ∈ rest, x ≠ "" := fun x hx => h x (List.mem_cons_of_mem word hx)
    have step : buildLines w avail (word :: rest) = buildLinesGo w avail rest [] word := by
      simp only [buildLines, buildLinesGo, if_pos rfl]
      by_cases hw : w word ≤ avail
      · simp [hw]
      · simp [hw]
    rw [step]
    have base := buildLinesGo_partition w avail rest hrest [word] (by simp) (by simpa using hword)
    simpa [joinWith] using base

theorem buildLinesGo_width (w : String → Nat) (avail : Nat) (words0 : List String) :
    ∀ (words acc : List String) (cur : String),
      (∀ L ∈ acc, w L ≤ avail ∨ L ∈ words0) →
      (cur = "" ∨ w cur ≤ avail ∨ cur ∈ words0) →
      (∀ x ∈ words, x ∈ words0) →
      ∀ L ∈ buildLinesGo w avail words acc cur, w L ≤ avail ∨ L ∈ words0 := by
  intro words
  induction words with
  | nil =>
    intro acc cur hacc hcur _ L hL
    by_cases hc : cur = ""
    · rw [show buildLinesGo w avail [] acc cur = acc by simp [buildLinesGo, hc]] at hL
      exact hacc L hL
    · rw [show buildLinesGo w avail [] acc cur = acc ++ [cur] by simp [buildLinesGo, hc]] at hL
      rcases List.mem_append.mp hL with h1 | h1
      · exact hacc L h1
      · simp at h1; subst h1
        rcases hcur with h2 | h2
        · exact absurd h2 hc
        · exact h2
  | cons word rest ih =>
    intro acc cur hacc hcur hwords L hL
    have hword0 : word ∈ words0 := hwords word (by simp)
    have hrest : ∀ x ∈ rest, x ∈ words0 := fun x hx => hwords x (List.mem_cons_of_mem word hx)
    simp only [buildLinesGo] at hL
    by_cases hw : w (if cur = "" then word else cur ++ " " ++ word) ≤ avail
    · rw [if_pos hw] at hL
      exact ih acc _ hacc (Or.inr (Or.inl hw)) hrest L hL
    · rw [if_neg hw] at hL
      by_cases hc : cur = ""
      · rw [if_pos hc] at hL
        exact ih acc word hacc (Or.inr (Or.inr hword0)) hrest L hL
      · rw [if_neg hc] at hL
        refine ih (acc ++ [cur]) word ?_ (Or.inr (Or.inr hword0)) hrest L hL
        intro M hM
        rcases List.mem_append.mp hM with h1 | h1
        · exact hacc M h1
        · simp at h1; subst h1
          rcases hcur with h2 | h2
          · exact absurd h2 hc
          · exact h2

/- ------------------------------------------------------------------
   Claims C3 to C6.
   ------------------------------------------------------------------ -/

/-- Claim C3 counterexample: on the margin-preserving reflow path of
getTransformedText, the output on a text with a run of four newlines
differs from the output on the already-normalized text, because that
path splits the raw editedText without normalizing it first. -/
theorem C3_reflow_path_skips_normalization :
    getTransformedText true true true (fun s => s.data.length) 100 "" "a\n\n\n\nb"
      ≠ getTransformedText true true true (fun s => s.data.length) 100 ""
          (normalize "a\n\n\n\nb") := by decide

/-- Claim C3 (amended): normalization is the first step of
transformText for every format and both preserveMargins settings —
transforming a text gives the same output as transforming its
normalization — but the margin-preserving reflow path of
getTransformedText operates on the raw, un-normalized text. -/
theorem C3_transformText_normalizes_first (text format : String) (preserveMargins : Bool) :
    transformText text format preserveMargins
      = transformText (normalize text) format preserveMargins := by
  show tfBody (normalize text) format preserveMargins
      = tfBody (normalize (normalize text)) format preserveMargins
  rw [normalize_idem]

/-- Claim C4 counterexample: the reflow output does not have the same
paragraphs (maximal runs of non-empty lines) as the input.  The input
consisting of the two adjacent non-empty lines a and b forms one
paragraph, but the reflow joins its per-line results with a blank
line, producing two paragraphs. -/
theorem C4_paragraphs_not_preserved :
    (paragraphsOf (reflowResult (fun s => s.data.length) 100 "" "a\nb")).length
      ≠ (paragraphsOf "a\nb").length := by decide

/-- Claim C4 (amended): the margin-preserving reflow treats each
newline-delimited input line as its own paragraph: the output is the
blank-line join of one component per input line, where a line without
non-blank content yields the empty component and any other line yields
its greedily wrapped lines joined with the format-aware marker
(two-spaces-plus-newline for markdown, plain newline otherwise). -/
theorem C4_reflow_structure (w : String → Nat) (avail : Nat) (format text : String) :
    ∃ comps : List String,
      reflowResult w avail format text = joinWith "\n\n" comps
      ∧ List.Forall₂
          (fun (line comp : String) =>
            (jsTrim line = "" ∧ comp = "")
            ∨ (jsTrim line ≠ ""
                ∧ comp = joinWith (if format = "markdown" then "  \n" else "\n")
                    (buildLines w avail (splitOnChar ' ' line))))
          (splitLines text) comps := by
  refine ⟨(splitLines text).map (reflowParagraph w avail format), rfl, ?_⟩
  rw [List.forall₂_map_right_iff]
  rw [List.forall₂_same]
  intro line _
  by_cases h : jsTrim line = ""
  · exact Or.inl ⟨h, by simp [reflowParagraph, h]⟩
  · exact Or.inr ⟨h, by simp [reflowParagraph, h]⟩

/-- Claim C5 counterexample: with a measurement wide enough for every
word, the greedy loop still drops the empty word produced by the
leading space of the paragraph consisting of a space followed by a:
its space-delimited word sequence has two entries but the emitted
lines retain only the word a. -/
theorem C5_empty_word_dropped :
    (∀ x ∈ splitOnChar ' ' " a", (fun (s : String) => s.data.length) x ≤ 10)
    ∧ buildLines (fun s => s.data.length) 10 (splitOnChar ' ' " a") = ["a"]
    ∧ joinWith " " ["a"] ≠ " a" := by
  refine ⟨by decide, by decide, by decide⟩

/-- Claim C5 (amended): provided every space-delimited word of the
paragraph is non-empty (no leading, trailing-adjacent or doubled
spaces producing empty words) and the available width accommodates
every single word, the greedy loop emits lines that partition the
original word sequence in order: the emitted lines are exactly the
space-joins of consecutive non-empty groups whose concatenation is the
original word sequence — no word added, dropped, or altered. -/
theorem C5_reflow_preserves_words (w : String → Nat) (avail : Nat) (paragraph : String)
    (hwords : ∀ x ∈ splitOnChar ' ' paragraph, x ≠ "")
    (_hfit : ∀ x ∈ splitOnChar ' ' paragraph, w x ≤ avail) :
    ∃ groups : List (List String),
      buildLines w avail (splitOnChar ' ' paragraph) = groups.map (joinWith " ")
      ∧ groups.flatten = splitOnChar ' ' paragraph
      ∧ ∀ gr ∈ groups, gr ≠ [] :=
  buildLines_partition w avail (splitOnChar ' ' paragraph) hwords

/-- Witness for C5 at a concrete paragraph: both hypotheses hold for
the paragraph hello world at width 11 and the partition exists. -/
theorem C5_reflow_preserves_words_witness :
    (∀ x ∈ splitOnChar ' ' "hello world", x ≠ "")
    ∧ (∀ x ∈ splitOnChar ' ' "hello world", (fun (s : String) => s.data.length) x ≤ 11)
    ∧ ∃ groups : List (List String),
        buildLines (fun s => s.data.length) 11 (splitOnChar ' ' "hello world")
          = groups.map (joinWith " ")
        ∧ groups.flatten = splitOnChar ' ' "hello world"
        ∧ ∀ gr ∈ groups, gr ≠ [] :=
  ⟨by decide, by decide,
    C5_reflow_preserves_words (fun s => s.data.length) 11 "hello world"
      (by decide) (by decide)⟩

/-- Claim C6: every line emitted by the greedy loop either fits the
available width under the supplied measurement, or is one single word
of the paragraph that is by itself wider than the available width —
for every measurement family, font size, width and paragraph. -/
theorem C6_reflow_respects_width (measure : Nat → String → Nat)
    (fontSize avail : Nat) (paragraph L : String)
    (hL : L ∈ buildLines (measure fontSize) avail (splitOnChar ' ' paragraph)) :
    measure fontSize L ≤ avail
      ∨ (L ∈ splitOnChar ' ' paragraph ∧ avail < measure fontSize L) := by
  have base :=
    buildLinesGo_width (measure fontSize) avail (splitOnChar ' ' paragraph)
      (splitOnChar ' ' paragraph) [] "" (by simp) (Or.inl rfl) (fun x hx => hx) L hL
  rcases base with h | h
  · exact Or.inl h
  · by_cases hle : measure fontSize L ≤ avail
    · exact Or.inl hle
    · exact Or.inr ⟨h, Nat.lt_of_not_le hle⟩

/-- Witness for C6 at a concrete input: with a character-count
measurement and width 3, the paragraph abc de wraps into abc and de,
and the emitted line abc satisfies the width bound. -/
theorem C6_reflow_respects_width_witness :
    (fun (_ : Nat) (s : String) => s.data.length) 16 "abc" ≤ 3
      ∨ ("abc" ∈ splitOnChar ' ' "abc de"
          ∧ 3 < (fun (_ : Nat) (s : String) => s.data.length) 16 "abc") :=
  C6_reflow_respects_width (fun _ s => s.data.length) 16 3 "abc de" "abc" (by decide)

/- ------------------------------------------------------------------
   Correctness of the JSON parser on serializer output.
   ------------------------------------------------------------------ -/

theorem mk_data (s : String) : String.mk s.data = s := rfl

theorem decodeHex_hexDig : ∀ n < 16, decodeHex (hexDig n) = some n := by decide

theorem skipWs_not_ws (c : Char) (l : List Char) (h : isJsonWs c = false) :
    skipWs (c :: l) = c :: l := by
  simp [skipWs, h]

theorem skipWs_ws_append :
    ∀ (ws l : List Char), (∀ c ∈ ws, isJsonWs c = true) → skipWs (ws ++ l) = skipWs l := by
  intro ws
  induction ws with
  | nil => intro l _; rfl
  | cons c rest ih =>
    intro l h
    have hc : isJsonWs c = true := h c (by simp)
    rw [List.cons_append, show skipWs (c :: (rest ++ l)) = skipWs (rest ++ l)
        from by simp [skipWs, hc]]
    exact ih l fun d hd => h d (List.mem_cons_of_mem c hd)

theorem parseStringBody_quote (rest : List Char) :
    parseStringBody ('"' :: rest) = some ([], rest) := by
  rw [parseStringBody.eq_def]
  simp

theorem parseStringBody_named (e d : Char) (rest : List Char)
    (he : e ≠ 'u') (hd : decodeEsc e = some d) :
    parseStringBody ('\\' :: e :: rest)
      = match parseStringBody rest with
        | some (cs, rem) => some (d :: cs, rem)
        | none => none := by
  rw [parseStringBody.eq_def]
  simp [he, hd]

theorem parseStringBody_default (c : Char) (rest : List Char)
    (h1 : c ≠ '"') (h2 : c ≠ '\\') :
    parseStringBody (c :: rest)
      = match parseStringBody rest with
        | some (cs, rem) => some (c :: cs, rem)
        | none => none := by
  rw [parseStringBody.eq_def]
  simp [h1, h2]

theorem parseStringBody_unicode (h1 h2 h3 h4 : Char) (x1 x2 x3 x4 : Nat) (rest : List Char)
    (e1 : decodeHex h1 = some x1) (e2 : decodeHex h2 = some x2)
    (e3 : decodeHex h3 = some x3) (e4 : decodeHex h4 = some x4) :
    parseStringBody ('\\' :: 'u' :: h1 :: h2 :: h3 :: h4 :: rest)
      = match parseStringBody rest with
        | some (cs, rem) =>
          some (Char.ofNat (x1 * 4096 + x2 * 256 + x3 * 16 + x4) :: cs, rem)
        | none => none := by
  rw [parseStringBody.eq_def]
  simp [e1, e2, e3, e4]

theorem parseStringBody_esc :
    ∀ (cs rest : List Char),
      parseStringBody ((cs.map escChar).flatten ++ '"' :: rest) = some (cs, rest) := by
  intro cs
  induction cs with
  | nil => intro rest; simpa using parseStringBody_quote rest
  | cons c cs2 ih =>
    intro rest
    rw [List.map_cons, List.flatten_cons, List.append_assoc]
    by_cases h1 : c = '"'
    · subst h1
      rw [show escChar '"' = ['\\', '"'] from by decide, List.cons_append, List.cons_append,
        List.nil_append,
        parseStringBody_named '"' '"' _ (by decide) (by decide), ih rest]
    · by_cases h2 : c = '\\'
      · subst h2
        rw [show escChar '\\' = ['\\', '\\'] from by decide, List.cons_append, List.cons_append,
          List.nil_append,
          parseStringBody_named '\\' '\\' _ (by decide) (by decide), ih rest]
      · by_cases h3 : c = '\n'
        · subst h3
          rw [show escChar '\n' = ['\\', 'n'] from by decide, List.cons_append, List.cons_append,
            List.nil_append,
            parseStringBody_named 'n' '\n' _ (by decide) (by decide), ih rest]
        · by_cases h4 : c = '\t'
          · subst h4
            rw [show escChar '\t' = ['\\', 't'] from by decide, List.cons_append,
              List.cons_append, List.nil_append,
              parseStringBody_named 't' '\t' _ (by decide) (by decide), ih rest]
          · by_cases h5 : c.toNat = 13
            · have hc13 : c = Char.ofNat 13 := by rw [← h5, Char.ofNat_toNat]
              have hesc : escChar c = ['\\', 'r'] := by
                simp only [escChar, if_neg h1, if_neg h2, if_neg h3, if_neg h4, if_pos h5]
              rw [hesc, List.cons_append, List.cons_append, List.nil_append,
                parseStringBody_named 'r' (Char.ofNat 13) _ (by decide) (by decide), ih rest,
                ← hc13]
            · by_cases h6 : c.toNat = 8
              · have hc8 : c = Char.ofNat 8 := by rw [← h6, Char.ofNat_toNat]
                have hesc : escChar c = ['\\', 'b'] := by
                  simp only [escChar, if_neg h1, if_neg h2, if_neg h3, if_neg h4,
                    if_neg h5, if_pos h6]
                rw [hesc, List.cons_append, List.cons_append, List.nil_append,
                  parseStringBody_named 'b' (Char.ofNat 8) _ (by decide) (by decide), ih rest,
                  ← hc8]
              · by_cases h7 : c.toNat = 12
                · have hc12 : c = Char.ofNat 12 := by rw [← h7, Char.ofNat_toNat]
                  have hesc : escChar c = ['\\', 'f'] := by
                    simp only [escChar, if_neg h1, if_neg h2, if_neg h3, if_neg h4,
                      if_neg h5, if_neg h6, if_pos h7]
                  rw [hesc, List.cons_append, List.cons_append, List.nil_append,
                    parseStringBody_named 'f' (Char.ofNat 12) _ (by decide) (by decide), ih rest,
                    ← hc12]
                · by_cases h8 : c.toNat < 32
                  · have hd1 : decodeHex (hexDig (c.toNat / 16)) = some (c.toNat / 16) :=
                      decodeHex_hexDig (c.toNat / 16) (by omega)
                    have hd2 : decodeHex (hexDig (c.toNat % 16)) = some (c.toNat % 16) :=
                      decodeHex_hexDig (c.toNat % 16) (Nat.mod_lt _ (by norm_num))
                    have hv : 0 * 4096 + 0 * 256 + c.toNat / 16 * 16 + c.toNat % 16
                        = c.toNat := by omega
                    have hesc : escChar c
                        = ['\\', 'u', '0', '0', hexDig (c.toNat / 16), hexDig (c.toNat % 16)] := by
                      simp only [escChar, if_neg h1, if_neg h2, if_neg h3, if_neg h4,
                        if_neg h5, if_neg h6, if_neg h7, if_pos h8]
                    rw [hesc]
                    simp only [List.cons_append, List.nil_append]
                    rw [parseStringBody_unicode '0' '0' (hexDig (c.toNat / 16))
                        (hexDig (c.toNat % 16)) 0 0 (c.toNat / 16) (c.toNat % 16) _
                        (by decide) (by decide) hd1 hd2, ih rest, hv, Char.ofNat_toNat]
                  · have hesc : escChar c = [c] := by
                      simp only [escChar, if_neg h1, if_neg h2, if_neg h3, if_neg h4,
                        if_neg h5, if_neg h6, if_neg h7, if_neg h8]
                    rw [hesc, List.cons_append, List.nil_append,
                      parseStringBody_default c _ h1 h2, ih rest]

theorem parseMembersAux_ws (fuel : Nat) (ws l : List Char)
    (h : ∀ c ∈ ws, isJsonWs c = true) :
    parseMembersAux fuel (ws ++ l) = parseMembersAux fuel l := by
  cases fuel with
  | zero => rfl
  | succ f =>
    conv_lhs => rw [parseMembersAux.eq_def]
    conv_rhs => rw [parseMembersAux.eq_def]
    simp only []
    rw [skipWs_ws_append ws l h]

theorem parseMembersAux_step (f : Nat) (k v : String) (colonWs : List Char)
    (hcws : ∀ c ∈ colonWs, isJsonWs c = true) (tail : List Char) :
    parseMembersAux (f + 1)
      ('"' :: ((k.data.map escChar).flatten ++ '"' :: ':' :: (colonWs
        ++ '"' :: ((v.data.map escChar).flatten ++ '"' :: tail))))
      = match skipWs tail with
        | '\x7d' :: r6 => some ([(k, v)], r6)
        | ',' :: r6 =>
          match parseMembersAux f r6 with
          | some (ps, r7) => some ((k, v) :: ps, r7)
          | none => none
        | _ => none := by
  rw [parseMembersAux.eq_def]
  simp only []
  rw [skipWs_not_ws '"' _ (by decide)]
  simp only [parseStringBody_esc k.data, mk_data]
  rw [skipWs_not_ws ':' _ (by decide)]
  simp only []
  rw [skipWs_ws_append colonWs _ hcws, skipWs_not_ws '"' _ (by decide)]
  simp only [parseStringBody_esc v.data, mk_data]

theorem ws_replicate (i : Nat) : ∀ c ∈ List.replicate i ' ', isJsonWs c = true := by
  intro c hc
  rw [List.eq_of_mem_replicate hc]
  decide

theorem ws_nl_replicate (i : Nat) : ∀ c ∈ '\n' :: List.replicate i ' ', isJsonWs c = true := by
  intro c hc
  rcases List.mem_cons.mp hc with h | h
  · subst h; decide
  · rw [List.eq_of_mem_replicate h]; decide

theorem parseMembersAux_members (colonWs entrySep lastWs : List Char)
    (hcws : ∀ c ∈ colonWs, isJsonWs c = true)
    (hews : ∀ c ∈ entrySep, isJsonWs c = true)
    (hlws : ∀ c ∈ lastWs, isJsonWs c = true) :
    ∀ (pairs : List (String × String)) (suffix : List Char) (fuel : Nat),
      pairs ≠ [] → pairs.length ≤ fuel →
      parseMembersAux fuel (membersChars colonWs entrySep lastWs pairs suffix)
        = some (pairs, suffix) := by
  intro pairs
  induction pairs with
  | nil => intro suffix fuel h _; exact absurd rfl h
  | cons kv rest ih =>
    obtain ⟨k, v⟩ := kv
    intro suffix fuel _ hfuel
    cases fuel with
    | zero => simp at hfuel
    | succ f =>
      cases rest with
      | nil =>
        have hshape : membersChars colonWs entrySep lastWs [(k, v)] suffix
            = '"' :: ((k.data.map escChar).flatten ++ '"' :: ':' :: (colonWs
              ++ '"' :: ((v.data.map escChar).flatten ++ '"'
                :: (lastWs ++ '\x7d' :: suffix)))) := by
          simp [membersChars]
        rw [hshape, parseMembersAux_step f k v colonWs hcws]
        rw [skipWs_ws_append lastWs _ hlws, skipWs_not_ws '\x7d' _ (by decide)]
        simp
      | cons kv2 rest2 =>
        have hshape : membersChars colonWs entrySep lastWs ((k, v) :: kv2 :: rest2) suffix
            = '"' :: ((k.data.map escChar).flatten ++ '"' :: ':' :: (colonWs
              ++ '"' :: ((v.data.map escChar).flatten ++ '"'
                :: (',' :: (entrySep
                  ++ membersChars colonWs entrySep lastWs (kv2 :: rest2) suffix))))) := by
          simp [membersChars]
        rw [hshape, parseMembersAux_step f k v colonWs hcws]
        rw [skipWs_not_ws ',' _ (by decide)]
        have hrec : parseMembersAux f
            (entrySep ++ membersChars colonWs entrySep lastWs (kv2 :: rest2) suffix)
            = some (kv2 :: rest2, suffix) := by
          rw [parseMembersAux_ws f entrySep _ hews]
          exact ih suffix f (by simp) (by simp at hfuel ⊢; omega)
        simp [hrec]

theorem membersChars_head (colonWs entrySep lastWs : List Char) :
    ∀ (pairs : List (String × String)) (suffix : List Char), pairs ≠ [] →
      ∃ t, membersChars colonWs entrySep lastWs pairs suffix = '"' :: t := by
  intro pairs suffix h
  cases pairs with
  | nil => exact absurd rfl h
  | cons kv rest =>
    obtain ⟨k, v⟩ := kv
    cases rest with
    | nil =>
      refine ⟨(k.data.map escChar).flatten ++ '"' :: ':' :: (colonWs
        ++ '"' :: ((v.data.map escChar).flatten ++ '"' :: (lastWs ++ '\x7d' :: suffix))), ?_⟩
      simp [membersChars]
    | cons kv2 rest2 =>
      refine ⟨(k.data.map escChar).flatten ++ '"' :: ':' :: (colonWs
        ++ '"' :: ((v.data.map escChar).flatten ++ '"' :: (',' :: (entrySep
          ++ membersChars colonWs entrySep lastWs (kv2 :: rest2) suffix)))), ?_⟩
      simp [membersChars]

theorem membersChars_length (colonWs entrySep lastWs : List Char) :
    ∀ (pairs : List (String × String)) (suffix : List Char),
      pairs.length ≤ (membersChars colonWs entrySep lastWs pairs suffix).length := by
  intro pairs
  induction pairs with
  | nil => intro suffix; simp [membersChars]
  | cons kv rest ih =>
    obtain ⟨k, v⟩ := kv
    intro suffix
    cases rest with
    | nil => simp [membersChars]
    | cons kv2 rest2 =>
      have h2 := ih suffix
      simp only [membersChars, List.length_cons, List.length_append] at h2 ⊢
      omega

theorem compact_members_data :
    ∀ (pairs : List (String × String)), pairs ≠ [] → ∀ (suffix : List Char),
      (joinWith "," (pairs.map fun p => jsonQuote p.1 ++ ":" ++ jsonQuote p.2)).data
          ++ '\x7d' :: suffix
        = membersChars [] [] [] pairs suffix := by
  intro pairs
  induction pairs with
  | nil => intro h; exact absurd rfl h
  | cons kv rest ih =>
    obtain ⟨k, v⟩ := kv
    intro _ suffix
    cases rest with
    | nil =>
      show (jsonQuote k ++ ":" ++ jsonQuote v).data ++ '\x7d' :: suffix = _
      simp [membersChars, jsonQuote, data_append]
    | cons kv2 rest2 =>
      show ((jsonQuote k ++ ":" ++ jsonQuote v) ++ ","
          ++ joinWith "," ((kv2 :: rest2).map fun p => jsonQuote p.1 ++ ":" ++ jsonQuote p.2)).data
          ++ '\x7d' :: suffix = _
      rw [show membersChars [] [] [] ((k, v) :: kv2 :: rest2) suffix
          = '"' :: (k.data.map escChar).flatten ++ '"' :: ':' :: []
            ++ '"' :: (v.data.map escChar).flatten ++ '"' :: ',' :: []
            ++ membersChars [] [] [] (kv2 :: rest2) suffix from by simp [membersChars]]
      rw [← ih (by simp) suffix]
      simp [jsonQuote, data_append]

theorem pretty_members_data (i : Nat) :
    ∀ (pairs : List (String × String)), pairs ≠ [] → ∀ (suffix : List Char),
      (joinWith ",\n" (pairs.map fun p =>
          String.mk (List.replicate i ' ') ++ jsonQuote p.1 ++ ": " ++ jsonQuote p.2)).data
          ++ '\n' :: '\x7d' :: suffix
        = List.replicate i ' '
          ++ membersChars [' '] ('\n' :: List.replicate i ' ') ['\n'] pairs suffix := by
  intro pairs
  induction pairs with
  | nil => intro h; exact absurd rfl h
  | cons kv rest ih =>
    obtain ⟨k, v⟩ := kv
    intro _ suffix
    cases rest with
    | nil =>
      show (String.mk (List.replicate i ' ') ++ jsonQuote k ++ ": " ++ jsonQuote v).data
          ++ '\n' :: '\x7d' :: suffix = _
      simp [membersChars, jsonQuote, data_append]
    | cons kv2 rest2 =>
      show ((String.mk (List.replicate i ' ') ++ jsonQuote k ++ ": " ++ jsonQuote v) ++ ",\n"
          ++ joinWith ",\n" ((kv2 :: rest2).map fun p =>
              String.mk (List.replicate i ' ') ++ jsonQuote p.1 ++ ": " ++ jsonQuote p.2)).data
          ++ '\n' :: '\x7d' :: suffix = _
      rw [show membersChars [' '] ('\n' :: List.replicate i ' ') ['\n']
            ((k, v) :: kv2 :: rest2) suffix
          = '"' :: (k.data.map escChar).flatten ++ '"' :: ':' :: [' ']
            ++ '"' :: (v.data.map escChar).flatten ++ '"' :: ',' :: ('\n' :: List.replicate i ' ')
            ++ membersChars [' '] ('\n' :: List.replicate i ' ') ['\n'] (kv2 :: rest2) suffix
          from by simp [membersChars]]
      have ihe := ih (by simp) suffix
      simp only [List.append_assoc, List.cons_append]
      rw [← ihe]
      simp [jsonQuote, data_append]

theorem parseJsonObject_stringify (pairs : List (String × String)) (i : Nat) :
    parseJsonObject (jsonStringifyObj pairs i) = some pairs := by
  by_cases hp : pairs = []
  · subst hp
    rw [show jsonStringifyObj [] i = "\x7b\x7d" from by simp [jsonStringifyObj]]
    decide
  · by_cases hi : i = 0
    · subst hi
      have hdata : (jsonStringifyObj pairs 0).data
          = '\x7b' :: membersChars [] [] [] pairs [] := by
        rw [show jsonStringifyObj pairs 0
            = "\x7b" ++ joinWith "," (pairs.map fun p => jsonQuote p.1 ++ ":" ++ jsonQuote p.2)
              ++ "\x7d" from by simp [jsonStringifyObj, hp]]
        rw [data_append, data_append, ← compact_members_data pairs hp []]
        simp
      obtain ⟨t, ht⟩ := membersChars_head [] [] [] pairs [] hp
      unfold parseJsonObject
      rw [hdata, skipWs_not_ws '\x7b' _ (by decide)]
      simp only []
      rw [ht, skipWs_not_ws '"' _ (by decide)]
      have hfuel : pairs.length ≤ ('"' :: t).length := by
        rw [← ht]; exact membersChars_length [] [] [] pairs []
      have hparse : parseMembersAux (t.length + 1) ('"' :: t) = some (pairs, []) := by
        rw [show t.length + 1 = ('"' :: t).length from by simp, ← ht]
        exact parseMembersAux_members [] [] [] (by simp) (by simp) (by simp) pairs []
          (membersChars [] [] [] pairs []).length hp (membersChars_length [] [] [] pairs [])
      simp [hparse, show skipWs ([] : List Char) = [] from rfl]
    · have hne : i ≠ 0 := hi
      set M := membersChars [' '] ('\n' :: List.replicate i ' ') ['\n'] pairs [] with hM
      have hdata : (jsonStringifyObj pairs i).data
          = '\x7b' :: ('\n' :: (List.replicate i ' ' ++ M)) := by
        rw [show jsonStringifyObj pairs i
            = "\x7b\n" ++ joinWith ",\n" (pairs.map fun p =>
                String.mk (List.replicate i ' ') ++ jsonQuote p.1 ++ ": " ++ jsonQuote p.2)
              ++ "\n\x7d" from by simp [jsonStringifyObj, hp, hne]]
        rw [data_append, data_append, hM, ← pretty_members_data i pairs hp []]
        simp
      obtain ⟨t, ht⟩ := membersChars_head [' '] ('\n' :: List.replicate i ' ') ['\n'] pairs [] hp
      rw [← hM] at ht
      have hskip : skipWs ('\n' :: (List.replicate i ' ' ++ M)) = '"' :: t := by
        rw [show skipWs ('\n' :: (List.replicate i ' ' ++ M))
            = skipWs (List.replicate i ' ' ++ M) from by simp [skipWs, isJsonWs]]
        rw [skipWs_ws_append _ _ (ws_replicate i), ht, skipWs_not_ws '"' _ (by decide)]
      unfold parseJsonObject
      rw [hdata, skipWs_not_ws '\x7b' _ (by decide)]
      simp only []
      rw [hskip]
      have hfuel : pairs.length ≤ ('\n' :: (List.replicate i ' ' ++ M)).length := by
        have h1 : pairs.length ≤ M.length := by
          rw [hM]; exact membersChars_length _ _ _ pairs []
        simp only [List.length_cons, List.length_append]
        omega
      have hparse : parseMembersAux (i + M.length + 1)
          ('\n' :: (List.replicate i ' ' ++ M)) = some (pairs, []) := by
        rw [show ('\n' :: (List.replicate i ' ' ++ M))
            = ('\n' :: List.replicate i ' ') ++ M from by simp]
        rw [parseMembersAux_ws _ _ _ (ws_nl_replicate i)]
        rw [hM]
        refine parseMembersAux_members [' '] ('\n' :: List.replicate i ' ') ['\n']
          (by simp [isJsonWs]) (ws_nl_replicate i) (by simp [isJsonWs]) pairs [] _ hp ?_
        have h1 : pairs.length ≤ M.length := by
          rw [hM]; exact membersChars_length _ _ _ pairs []
        rw [← hM]
        omega
      simp [hparse, show skipWs ([] : List Char) = [] from rfl]

theorem hexDig_ne_newline : ∀ n < 16, hexDig n ≠ '\n' := by decide

theorem escChar_no_newline (c : Char) : '\n' ∉ escChar c := by
  unfold escChar
  split_ifs with h1 h2 h3 h4 h5 h6 h7 h8
  · decide
  · decide
  · decide
  · decide
  · decide
  · decide
  · decide
  · intro hmem
    simp only [List.mem_cons, List.not_mem_nil, or_false] at hmem
    rcases hmem with h | h | h | h | h | h
    · exact absurd h (by decide)
    · exact absurd h (by decide)
    · exact absurd h (by decide)
    · exact absurd h (by decide)
    · exact hexDig_ne_newline (c.toNat / 16) (by omega) h.symm
    · exact hexDig_ne_newline (c.toNat % 16) (Nat.mod_lt _ (by norm_num)) h.symm
  · intro hmem
    simp only [List.mem_cons, List.not_mem_nil, or_false] at hmem
    have : c.toNat = 10 := by rw [← hmem]; decide
    omega

theorem data_mk (l : List Char) : (String.mk l).data = l := rfl

theorem jsonQuote_no_newline (s : String) : '\n' ∉ (jsonQuote s).data := by
  intro h
  simp only [jsonQuote, data_mk] at h
  rcases List.mem_cons.mp h with h1 | h1
  · exact absurd h1 (by decide)
  · rcases List.mem_append.mp h1 with h2 | h2
    · rcases List.mem_flatten.mp h2 with ⟨l, hl, hmem⟩
      rcases List.mem_map.mp hl with ⟨c, _, hc⟩
      rw [← hc] at hmem
      exact escChar_no_newline c hmem
    · exact absurd h2 (by decide)

theorem joinWith_no_newline (sep : String) (hs : '\n' ∉ sep.data) :
    ∀ (xs : List String), (∀ x ∈ xs, '\n' ∉ x.data) → '\n' ∉ (joinWith sep xs).data := by
  intro xs
  induction xs with
  | nil => intro _; simp [joinWith]
  | cons x t ih =>
    intro hx
    cases t with
    | nil => exact hx x (by simp)
    | cons y t2 =>
      show '\n' ∉ (x ++ sep ++ joinWith sep (y :: t2)).data
      rw [data_append, data_append]
      intro h
      rcases List.mem_append.mp h with h1 | h1
      · rcases List.mem_append.mp h1 with h2 | h2
        · exact hx x (by simp) h2
        · exact hs h2
      · exact ih (fun z hz => hx z (List.mem_cons_of_mem x hz)) h1

theorem stringify0_no_newline (pairs : List (String × String)) :
    '\n' ∉ (jsonStringifyObj pairs 0).data := by
  by_cases hp : pairs = []
  · subst hp; decide
  · rw [show jsonStringifyObj pairs 0
        = "\x7b" ++ joinWith "," (pairs.map fun p => jsonQuote p.1 ++ ":" ++ jsonQuote p.2)
          ++ "\x7d" from by simp [jsonStringifyObj, hp]]
    rw [data_append, data_append]
    intro h
    rcases List.mem_append.mp h with h1 | h1
    · rcases List.mem_append.mp h1 with h2 | h2
      · exact absurd h2 (by decide)
      · refine joinWith_no_newline "," (by decide) _ ?_ h2
        intro x hx
        rcases List.mem_map.mp hx with ⟨p, _, hpx⟩
        rw [← hpx, data_append, data_append]
        intro hmem
        rcases List.mem_append.mp hmem with h3 | h3
        · rcases List.mem_append.mp h3 with h4 | h4
          · exact jsonQuote_no_newline p.1 h4
          · exact absurd h4 (by decide)
        · exact jsonQuote_no_newline p.2 h3
    · exact absurd h1 (by decide)

theorem stringify_pretty_newline (pairs : List (String × String)) (hp : pairs ≠ [])
    (i : Nat) (hi : i ≠ 0) : '\n' ∈ (jsonStringifyObj pairs i).data := by
  rw [show jsonStringifyObj pairs i
      = "\x7b\n" ++ joinWith ",\n" (pairs.map fun p =>
          String.mk (List.replicate i ' ') ++ jsonQuote p.1 ++ ": " ++ jsonQuote p.2)
        ++ "\n\x7d" from by simp [jsonStringifyObj, hp, hi]]
  rw [data_append, data_append]
  apply List.mem_append.mpr
  left
  apply List.mem_append.mpr
  left
  decide

theorem enumLines_ne_nil (xs : List String) (h : xs ≠ []) : enumLines xs ≠ [] := by
  cases xs with
  | nil => exact absurd rfl h
  | cons x t => simp [enumLines]

/- ------------------------------------------------------------------
   Claims C7 to C10.
   ------------------------------------------------------------------ -/

/-- Claim C7 counterexample: with preserveMargins false, the markdown
serializer appends two spaces to the line consisting of a followed by
one space, so the output line ends in three trailing spaces rather
than exactly two; and the non-empty whitespace-only line of one space
is left unchanged, ending in one trailing space. -/
theorem C7_markdown_trailing_spaces_counterexample :
    transformText "a " "markdown" false = "a   "
    ∧ countTrailing ' ' (transformText "a " "markdown" false) = 3
    ∧ transformText " " "markdown" false = " "
    ∧ countTrailing ' ' (transformText " " "markdown" false) = 1 :=
  ⟨by decide, by decide, by decide, by decide⟩

/-- Claim C7 (amended): with preserveMargins true the markdown output
is the normalized text unchanged; with preserveMargins false each line
of the normalized text that has non-blank content gains an appended
two-space hard break, while empty and whitespace-only lines pass
through unchanged — line by line. -/
theorem C7_markdown_hard_breaks (text : String) :
    transformText text "markdown" true = normalize text
    ∧ List.Forall₂
        (fun (li lo : String) => lo = if jsTrim li = "" then li else li ++ "  ")
        (splitLines (normalize text)) (splitLines (transformText text "markdown" false)) := by
  constructor
  · simp [transformText, tfBody]
  · have hmap : transformText text "markdown" false
        = joinWith "\n" ((splitLines (normalize text)).map fun line =>
            if jsTrim line = "" then line else line ++ "  ") := by
      simp [transformText, tfBody]
    rw [hmap]
    rw [splitLines_joinWith _ ?_ ?_]
    · rw [List.forall₂_map_right_iff, List.forall₂_same]
      intro x _
      rfl
    · have := splitLines_ne_nil (normalize text)
      simp [this]
    · intro x hx
      rcases List.mem_map.mp hx with ⟨li, hli, hfx⟩
      have hno : '\n' ∉ li.data := not_newline_mem_of_mem_splitLines (normalize text) li hli
      rw [← hfx]
      by_cases h : jsTrim li = ""
      · simpa [h] using hno
      · rw [if_neg h, data_append]
        intro hmem
        rcases List.mem_append.mp hmem with h1 | h1
        · exact hno h1
        · exact absurd h1 (by decide)

/-- Claim C8: for every input string, every preserveMargins value,
every measurement and every width, the json output parses as a flat
JSON object whose content field is the (normalized, or reflowed on the
margin-preserving path) text, and the json-separated output parses
successfully as well — on both the transformText path and the
margin-preserving reflow path. -/
theorem C8_json_outputs_valid (text : String) (pm : Bool) (w : String → Nat) (avail : Nat) :
    parseJsonObject (transformText text "json" pm) = some [("content", normalize text)]
    ∧ (parseJsonObject (transformText text "json-separated" pm)).isSome = true
    ∧ parseJsonObject (reflowSerialize w avail "json" text)
        = some [("content", reflowResult w avail "json" text)]
    ∧ (parseJsonObject (reflowSerialize w avail "json-separated" text)).isSome = true := by
  refine ⟨?_, ?_, ?_, ?_⟩
  · rw [show transformText text "json" pm
        = jsonStringifyObj [("content", normalize text)] (if pm then 2 else 0)
        from by simp [transformText, tfBody]]
    exact parseJsonObject_stringify _ _
  · rw [show transformText text "json-separated" pm
        = jsonStringifyObj (enumLines (splitLines (normalize text))) (if pm then 2 else 0)
        from by simp [transformText, tfBody]]
    rw [parseJsonObject_stringify]
    rfl
  · rw [show reflowSerialize w avail "json" text
        = jsonStringifyObj [("content", reflowResult w avail "json" text)] 0
        from by simp [reflowSerialize]]
    exact parseJsonObject_stringify _ _
  · rw [show reflowSerialize w avail "json-separated" text
        = jsonStringifyObj
            (enumLines (((splitLines (reflowResult w avail "json-separated" text)).filter
              fun l => jsTrim l ≠ "").map jsTrim)) 2
        from by simp [reflowSerialize]]
    rw [parseJsonObject_stringify]
    rfl

/-- Claim C9 counterexample: on the margin-preserving reflow path the
json-separated values are the trimmed lines, not the line content: the
input whose first line is the letter a followed by a space reflows to
a first line with a trailing space, but the parsed value of line 1 is
the trimmed string without it. -/
theorem C9_reflow_values_trimmed :
    reflowResult (fun s => s.data.length) 100 "json-separated" "a \nb" = "a \n\nb"
    ∧ parseJsonObject (reflowSerialize (fun s => s.data.length) 100 "json-separated" "a \nb")
        = some [("line 1", "a"), ("line 2", "b")]
    ∧ ("a" : String) ≠ "a " :=
  ⟨by decide, by decide, by decide⟩

/-- Claim C9 (amended): the json-separated output parses to the object
with keys line 1, line 2, ... in order.  On the transformText path
there is one member per newline-delimited segment of the normalized
text and the values are exactly the segments; on the reflow path there
is one member per line of the reflowed text with non-blank content and
the values are those lines trimmed.  In particular the input a/b/c
yields line 1 to a, line 2 to b, line 3 to c. -/
theorem C9_json_separated_keys (text : String) (pm : Bool) (w : String → Nat) (avail : Nat) :
    parseJsonObject (transformText text "json-separated" pm)
      = some (enumLines (splitLines (normalize text)))
    ∧ (enumLines (splitLines (normalize text))).length = (splitLines (normalize text)).length
    ∧ parseJsonObject (reflowSerialize w avail "json-separated" text)
      = some (enumLines
          (((splitLines (reflowResult w avail "json-separated" text)).filter
            fun l => jsTrim l ≠ "").map jsTrim))
    ∧ parseJsonObject (transformText "a\nb\nc" "json-separated" pm)
      = some [("line 1", "a"), ("line 2", "b"), ("line 3", "c")] := by
  refine ⟨?_, by simp [enumLines], ?_, ?_⟩
  · rw [show transformText text "json-separated" pm
        = jsonStringifyObj (enumLines (splitLines (normalize text))) (if pm then 2 else 0)
        from by simp [transformText, tfBody]]
    exact parseJsonObject_stringify _ _
  · rw [show reflowSerialize w avail "json-separated" text
        = jsonStringifyObj
            (enumLines (((splitLines (reflowResult w avail "json-separated" text)).filter
              fun l => jsTrim l ≠ "").map jsTrim)) 2
        from by simp [reflowSerialize]]
    exact parseJsonObject_stringify _ _
  · rw [show transformText "a\nb\nc" "json-separated" pm
        = jsonStringifyObj (enumLines (splitLines (normalize "a\nb\nc"))) (if pm then 2 else 0)
        from by simp [transformText, tfBody]]
    rw [parseJsonObject_stringify]
    decide

/-- Claim C10 counterexample: on the margin-preserving reflow path —
where preserveMargins is true, so the compact rule of the claim calls
for pretty-printing — the json output is emitted single-line with no
raw newline, while the json-separated output of the very same path and
settings is pretty-printed and contains raw newlines: the two formats
do not follow one compact rule. -/
theorem C10_reflow_indent_inconsistent :
    reflowSerialize (fun s => s.data.length) 100 "json" "a" = "\x7b\"content\":\"a\"\x7d"
    ∧ '\n' ∉ (reflowSerialize (fun s => s.data.length) 100 "json" "a").data
    ∧ '\n' ∈ (reflowSerialize (fun s => s.data.length) 100 "json-separated" "a").data :=
  ⟨by decide, by decide, by decide⟩

/-- Claim C10 (amended): in transformText, json output is
pretty-printed with two-space indentation when preserveMargins is true
and single-line when false, and json-separated follows the same rule
(raw newlines appear exactly when preserveMargins is true); on the
margin-preserving reflow path, however, json is always emitted
single-line while json-separated is always pretty-printed with
two-space indentation, containing raw newlines whenever it has at
least one line member. -/
theorem C10_json_indentation (text : String) (pm : Bool) (w : String → Nat) (avail : Nat) :
    transformText text "json" true
      = "\x7b\n" ++ "  " ++ jsonQuote "content" ++ ": " ++ jsonQuote (normalize text) ++ "\n\x7d"
    ∧ transformText text "json" false
      = "\x7b" ++ jsonQuote "content" ++ ":" ++ jsonQuote (normalize text) ++ "\x7d"
    ∧ ('\n' ∈ (transformText text "json-separated" pm).data ↔ pm = true)
    ∧ reflowSerialize w avail "json" text
      = "\x7b" ++ jsonQuote "content" ++ ":"
        ++ jsonQuote (reflowResult w avail "json" text) ++ "\x7d"
    ∧ ((splitLines (reflowResult w avail "json-separated" text)).filter
          (fun l => jsTrim l ≠ "") ≠ [] →
        '\n' ∈ (reflowSerialize w avail "json-separated" text).data) := by
  refine ⟨?_, ?_, ?_, ?_, ?_⟩
  · apply string_eq_of_data
    simp [transformText, tfBody, jsonStringifyObj, joinWith, data_append,
      show (List.replicate 2 ' ') = [' ', ' '] from rfl]
  · apply string_eq_of_data
    simp [transformText, tfBody, jsonStringifyObj, joinWith, data_append]
  · rw [show transformText text "json-separated" pm
        = jsonStringifyObj (enumLines (splitLines (normalize text))) (if pm then 2 else 0)
        from by simp [transformText, tfBody]]
    cases pm with
    | false =>
      constructor
      · intro hmem
        rw [if_neg (by simp : ¬ ((false : Bool) = true))] at hmem
        exact absurd hmem (stringify0_no_newline _)
      · intro hh
        exact absurd hh (by simp)
    | true =>
      constructor
      · intro _; rfl
      · intro _
        rw [if_pos rfl]
        have hne := enumLines_ne_nil (splitLines (normalize text)) (splitLines_ne_nil _)
        exact stringify_pretty_newline _ hne 2 (by norm_num)
  · apply string_eq_of_data
    simp [reflowSerialize, jsonStringifyObj, joinWith, data_append]
  · intro hfilter
    rw [show reflowSerialize w avail "json-separated" text
        = jsonStringifyObj
            (enumLines (((splitLines (reflowResult w avail "json-separated" text)).filter
              fun l => jsTrim l ≠ "").map jsTrim)) 2
        from by simp [reflowSerialize]]
    apply stringify_pretty_newline _ ?_ 2 (by norm_num)
    apply enumLines_ne_nil
    simpa using hfilter

/-- Witness for C10 at a concrete input: the reflow path of the one
letter text a produces a json-separated output containing a raw
newline, its filtered line list being non-empty. -/
theorem C10_json_indentation_witness :
    '\n' ∈ (reflowSerialize (fun s => s.data.length) 100 "json-separated" "a").data :=
  (C10_json_indentation "a" true (fun s => s.data.length) 100).2.2.2.2 (by decide)

example : normalize "a\n\n\n\nb" = "a\n\nb" := by decide
example : transformText "a " "markdown" false = "a   " := by decide
example : transformText " " "markdown" false = " " := by decide
example : buildLines (fun s => s.data.length) 10 (splitOnChar ' ' " a") = ["a"] := by decide
example : reflowResult (fun s => s.data.length) 100 "" "a\nb" = "a\n\nb" := by decide
example : parseJsonObject (transformText "x" "json" true) = some [("content", "x")] := by decide
example : parseJsonObject (transformText "a\nb\nc" "json-separated" false)
    = some [("line 1", "a"), ("line 2", "b"), ("line 3", "c")] := by decide
example : paragraphsOf "a\nb" = [["a", "b"]] := by decide

end Shuffle
